import Mathlib

/-!
Shallow embedding of `src/flamegraph_analyzer.py` (class `FlameGraphAnalyzer`).

Strings are modelled as `List Char`; Python `dict`/`defaultdict(int)` as
insertion-ordered association lists; Python `defaultdict(set)` as an
association list from key to a duplicate-free list of values; Python `int`
as `Int` (arbitrary precision, no overflow); the percentages computed by
the report methods as `Rat`, with a division whose denominator is zero
modelled as `none` (Python raises `ZeroDivisionError` there).
-/

abbrev Str := List Char

def toL (s : String) : Str := s.data

/-- Python `str.strip()` whitespace test (ASCII whitespace). -/
def isSpace (c : Char) : Bool :=
  c = ' ' || c = '\t' || c = '\n' || c = '\r' || c = '\x0b' || c = '\x0c'

def lstrip : Str → Str
  | [] => []
  | c :: cs => if isSpace c then lstrip cs else c :: cs

def rstrip (s : Str) : Str := (lstrip s.reverse).reverse

/-- Python `line.strip()`. -/
def strip (s : Str) : Str := rstrip (lstrip s)

/-- Python `str.split(sep)` for a one-character separator: always returns a
non-empty list; consecutive separators yield empty fields. -/
def splitChar (sep : Char) : Str → List Str
  | [] => [[]]
  | c :: cs =>
    match splitChar sep cs with
    | [] => [[]]
    | r :: rs => if c = sep then [] :: r :: rs else (c :: r) :: rs

/-- Split a string at the FIRST occurrence of `sep` into (before, after). -/
def breakAtFirst (sep : Char) : Str → Option (Str × Str)
  | [] => none
  | c :: cs =>
    if c = sep then some ([], cs)
    else
      match breakAtFirst sep cs with
      | none => none
      | some (b, a) => some (c :: b, a)

/-- Python `s.rsplit(sep, 1)`: split at the LAST occurrence of `sep`;
a list of two pieces when `sep` occurs, otherwise `[s]`. -/
def rsplit1 (sep : Char) (s : Str) : List Str :=
  match breakAtFirst sep s.reverse with
  | none => [s]
  | some (b, a) => [a.reverse, b.reverse]

def digitVal (c : Char) : Option Nat :=
  if '0' ≤ c ∧ c ≤ '9' then some (c.toNat - '0'.toNat) else none

/-- Digit run with single underscores allowed between digits, as accepted by
Python `int()` (ASCII digits modelled). -/
def digitsRun (acc : Nat) : Str → Option Nat
  | [] => some acc
  | '_' :: c :: cs =>
    match digitVal c with
    | some d => digitsRun (acc * 10 + d) cs
    | none => none
  | ['_'] => none
  | c :: cs =>
    match digitVal c with
    | some d => digitsRun (acc * 10 + d) cs
    | none => none

def parseDigits : Str → Option Nat
  | [] => none
  | c :: cs =>
    match digitVal c with
    | some d => digitsRun d cs
    | none => none

/-- Python `int(s)`: optional surrounding whitespace, optional sign,
ASCII digit run. `none` models the `ValueError`. -/
def pyInt (s : Str) : Option Int :=
  match strip s with
  | '+' :: rest => (parseDigits rest).map Int.ofNat
  | '-' :: rest => (parseDigits rest).map (fun n => -(n : Int))
  | t => (parseDigits t).map Int.ofNat

/-- Insertion-ordered association list standing for a Python
`defaultdict(int)`. -/
abbrev Tally := List (Str × Int)

/-- Lookup with default 0, as `defaultdict(int)` reads. -/
def tget (t : Tally) (k : Str) : Int :=
  match t with
  | [] => 0
  | (k2, v) :: rest => if k2 = k then v else tget rest k

/-- Python `d[k] += v` on a `defaultdict(int)`: creates the entry when absent,
preserving insertion order of keys. -/
def addTally (t : Tally) (k : Str) (v : Int) : Tally :=
  match t with
  | [] => [(k, v)]
  | (k2, v2) :: rest =>
    if k2 = k then (k2, v2 + v) :: rest else (k2, v2) :: addTally rest k v

/-- Python `sum(d.values())`. -/
def tallySum (t : Tally) : Int := (t.map Prod.snd).sum

def tkeys (t : Tally) : List Str := t.map Prod.fst

/-- Python `defaultdict(set)` used for `call_relations`. -/
abbrev EdgeMap := List (Str × List Str)

def eget (m : EdgeMap) (k : Str) : List Str :=
  match m with
  | [] => []
  | (k2, v) :: rest => if k2 = k then v else eget rest k

/-- Python `call_relations[caller].add(callee)`: set semantics (no duplicate
callees). -/
def addEdge (m : EdgeMap) (caller callee : Str) : EdgeMap :=
  match m with
  | [] => [(caller, [callee])]
  | (k, s) :: rest =>
    if k = caller then (k, if callee ∈ s then s else s ++ [callee]) :: rest
    else (k, s) :: addEdge rest caller callee

/-- The loop `for i in range(len(stack)-1): call_relations[stack[i]].add(stack[i+1])`. -/
def addEdges (m : EdgeMap) : List Str → EdgeMap
  | a :: b :: rest => addEdges (addEdge m a b) (b :: rest)
  | _ => m

/-- Python `'pat' in s`: substring containment. -/
def isSub (pat : Str) : Str → Bool
  | [] => pat.isEmpty
  | c :: rest => pat.isPrefixOf (c :: rest) || isSub pat rest

/-- The mutable state of a `FlameGraphAnalyzer` instance (its `__init__`
fields, minus the file path and the unused `alloc_size`). -/
structure Analyzer where
  inclusive_time : Tally
  exclusive_time : Tally
  call_relations : EdgeMap
  leaf_counts : Tally
  func_counts : Tally
  total_samples : Int
  parsed_lines : Nat
  line_count : Nat
  malloc_counts : Tally
  free_counts : Tally
  category_counts : Tally
deriving DecidableEq

def initAnalyzer : Analyzer :=
  { inclusive_time := [], exclusive_time := [], call_relations := []
    leaf_counts := [], func_counts := [], total_samples := 0
    parsed_lines := 0, line_count := 0, malloc_counts := []
    free_counts := [], category_counts := [] }

/-- The field `self.categories`: the ordered (category name, match substring) pairs,
exactly as listed in `__init__` (Python dicts preserve insertion order). -/
def categories : List (Str × Str) :=
  [ (toL "MoganSTEM", toL "MoganSTEM")
  , (toL "Qt", toL "Qt")
  , (toL "AppKit", toL "AppKit")
  , (toL "CoreFoundation", toL "CoreFoundation")
  , (toL "libsystem_malloc", toL "libsystem_malloc")
  , (toL "libsystem_kernel", toL "libsystem_kernel")
  , (toL "QuartzCore", toL "QuartzCore")
  , (toL "Foundation", toL "Foundation")
  , (toL "HIToolbox", toL "HIToolbox")
  , (toL "CoreText", toL "CoreText")
  , (toL "iiiSTEM", toL "iiiSTEM")
  , (toL "libqcocoa", toL "libqcocoa.dylib")
  , (toL "libqsvgicon", toL "libqsvgicon.dylib")
  , (toL "libxpc", toL "libxpc.dylib")
  , (toL "libdispatch", toL "libdispatch.dylib")
  , (toL "libobjc", toL "libobjc.A.dylib")
  , (toL "libswiftCore", toL "libswiftCore.dylib") ]

/-- The fallback bucket `'其他'` ("other"). -/
def otherCat : Str := toL "其他"

/-- Parse one already-stripped, non-empty line into `(stack, count)`:
`rsplit(';', 1)`, else `rsplit(' ', 1)` when a space occurs, `int()` on the
trailing token with fallback `count = 1` over the whole line
(`parse_file`, lines 67-91 of `flamegraph_analyzer.py`). -/
def parseStripped (line : Str) : List Str × Int :=
  let parts0 := rsplit1 ';' line
  let parts := if parts0.length ≠ 2 ∧ ' ' ∈ line then rsplit1 ' ' line else parts0
  match parts with
  | [stack_str, count_str] =>
    match pyInt count_str with
    | some n => (splitChar ';' stack_str, n)
    | none => (splitChar ';' line, 1)
  | _ => (splitChar ';' line, 1)

/-- The test `'malloc' in leaf_func or 'calloc' in leaf_func or 'realloc' in leaf_func`
of line 119. -/
def isAllocName (f : Str) : Bool :=
  isSub (toL "malloc") f || isSub (toL "calloc") f || isSub (toL "realloc") f

/-- Steps 1-5 of the per-line tally updates in `parse_file`
(lines 95-122): function counts (skipping empty names), call relations,
inclusive time, exclusive/leaf time for the last frame, and the
malloc/free leaf classification. -/
def aggregateSample (st : Analyzer) (stack : List Str) (count : Int) : Analyzer :=
  let st1 := { st with
    func_counts :=
      stack.foldl (fun t f => if f = [] then t else addTally t f count) st.func_counts }
  let st2 := { st1 with call_relations := addEdges st1.call_relations stack }
  let st3 := { st2 with
    inclusive_time := stack.foldl (fun t f => addTally t f count) st2.inclusive_time }
  match stack.getLast? with
  | none => st3
  | some leaf =>
    let st4 := { st3 with
      exclusive_time := addTally st3.exclusive_time leaf count
      leaf_counts := addTally st3.leaf_counts leaf count }
    if isAllocName leaf then
      { st4 with malloc_counts := addTally st4.malloc_counts leaf count }
    else if isSub (toL "free") leaf then
      { st4 with free_counts := addTally st4.free_counts leaf count }
    else st4

/-- One iteration of the `for line_num, line in enumerate(f, 1)` loop of
`parse_file`: count the raw line, strip it, skip it when empty, otherwise
parse it, bump `total_samples`/`parsed_lines` and aggregate. -/
def processLine (st : Analyzer) (rawLine : Str) : Analyzer :=
  let st1 := { st with line_count := st.line_count + 1 }
  let line := strip rawLine
  if line = [] then st1
  else
    let p := parseStripped line
    let st2 := { st1 with
      total_samples := st1.total_samples + p.2
      parsed_lines := st1.parsed_lines + 1 }
    if p.1 = [] then st2 else aggregateSample st2 p.1 p.2

/-- The category a distinct function name is assigned to: the first
`(cat_name, cat_prefix)` pair of `categories` whose substring occurs in the
name, else the fallback bucket (lines 124-133). -/
def assignCat (f : Str) : Str :=
  match categories.find? (fun p => isSub p.2 f) with
  | some p => p.1
  | none => otherCat

/-- Step 6 of `parse_file`: fold `func_counts` into `category_counts`. -/
def categorize (fc : Tally) (cc : Tally) : Tally :=
  fc.foldl (fun acc p => addTally acc (assignCat p.1) p.2) cc

/-- The whole of `parse_file` on the list of raw lines of the input file. -/
def parseFile (lines : List Str) : Analyzer :=
  let st := lines.foldl processLine initAnalyzer
  { st with category_counts := categorize st.func_counts st.category_counts }

/-- The Sample produced from one raw line; `none` models the `continue` on
a line that is empty after `strip()`. -/
def parseLine (rawLine : Str) : Option (List Str × Int) :=
  if strip rawLine = [] then none else some (parseStripped (strip rawLine))

/-- The stacks of all accepted lines of the input, in order. -/
def parsedStacks (lines : List Str) : List (List Str) :=
  lines.filterMap (fun l => (parseLine l).map Prod.fst)

/-- Number of occurrences of a frame name in a stack, as an integer. -/
def occCount (f : Str) : List Str → Int
  | [] => 0
  | x :: xs => (if x = f then 1 else 0) + occCount f xs

/-- Stable insertion for a descending sort by an integer key: the inserted
element (earlier in the original list) goes before elements of equal
key. -/
def insertDescBy (key : α → Int) (x : α) : List α → List α
  | [] => [x]
  | y :: ys => if key x < key y then y :: insertDescBy key x ys else x :: y :: ys

/-- Python `sorted(l, key=key, reverse=True)`: stable, descending by key. -/
def sortDescBy (key : α → Int) : List α → List α
  | [] => []
  | x :: xs => insertDescBy key x (sortDescBy key xs)

/-- `(w / total) * 100`; `none` models Python's `ZeroDivisionError`. -/
def pctOf (total w : Int) : Option Rat :=
  if total = 0 then none else some ((w : Rat) / (total : Rat) * 100)

/-- The guarded percentage idiom `(w / total) * 100 if total > 0 else 0`
of lines 225-227, 267 and 276. -/
def pctGuarded (total w : Int) : Rat :=
  if 0 < total then (w : Rat) / (total : Rat) * 100 else 0

/-- Option-valued map over a list: `none` as soon as one element fails. -/
def mapOpt (f : α → Option β) : List α → Option (List β)
  | [] => some []
  | x :: xs =>
    match f x, mapOpt f xs with
    | some y, some ys => some (y :: ys)
    | _, _ => none

/-- The `(func, time_val, percentage)` rows printed by
`print_inclusive_time_top` (lines 160-163); `none` when an iteration
divides by a zero `total_samples`. -/
def inclusiveTopRows (st : Analyzer) (topN : Nat) : Option (List (Str × Int × Rat)) :=
  mapOpt (fun p => (pctOf st.total_samples p.2).map (fun pc => (p.1, p.2, pc)))
    ((sortDescBy Prod.snd st.inclusive_time).take topN)

/-- First-occurrence duplicate removal, standing for iteration over a
Python set of keys. -/
def dedupAcc (seen : List Str) : List Str → List Str
  | [] => []
  | x :: xs => if x ∈ seen then dedupAcc seen xs else x :: dedupAcc (x :: seen) xs

/-- `set(self.malloc_counts.keys()) | set(self.free_counts.keys())`
(line 206), as a duplicate-free key list. -/
def memoryFuncs (mc fc : Tally) : List Str := dedupAcc [] (tkeys mc ++ tkeys fc)

/-- The `memory_stats` rows `(func, malloc_count, free_count, total)` with
`total > 0`, sorted by `total` descending (lines 207-217). -/
def memoryStats (mc fc : Tally) : List (Str × Int × Int × Int) :=
  sortDescBy (fun r => r.2.2.2)
    ((memoryFuncs mc fc).filterMap (fun f =>
      let m := tget mc f
      let fr := tget fc f
      if 0 < m + fr then some (f, m, fr, m + fr) else none))

inductive MemVerdict
  | leakRisk
  | cacheOrSkew
  | neutral
deriving DecidableEq

/-- The release/allocation ratio and its classification (lines 222,
231-242): only reached when `memory_stats` is non-empty, and only computed
when `total_malloc > 0`; `ratio < 0.8` warns of a possible leak,
`ratio > 1.2` notes possible cache release or sampling skew. -/
def globalRatioVerdict (mc fc : Tally) : Option (Rat × MemVerdict) :=
  if memoryStats mc fc = [] then none
  else
    let tm := tallySum mc
    let tf := tallySum fc
    if 0 < tm then
      let r : Rat := (tf : Rat) / (tm : Rat)
      some (r, if r < (4 : Rat) / 5 then MemVerdict.leakRisk
               else if (6 : Rat) / 5 < r then MemVerdict.cacheOrSkew
               else MemVerdict.neutral)
    else none

/-- The `leak_candidates` rows `(func, malloc, free, malloc - free)`
(lines 246-253): kept when `malloc > 0 and free > 0` and
`malloc > free * 2 and malloc - free > 10`, sorted by difference
descending. -/
def leakCandidates (mc fc : Tally) : List (Str × Int × Int × Int) :=
  sortDescBy (fun r => r.2.2.2)
    ((memoryStats mc fc).filterMap (fun r =>
      if 0 < r.2.1 ∧ 0 < r.2.2.1 ∧ r.2.2.1 * 2 < r.2.1 ∧ 10 < r.2.1 - r.2.2.1 then
        some (r.1, r.2.1, r.2.2.1, r.2.1 - r.2.2.1)
      else none))

/-- The "high cost" rows of `print_performance_issues` (lines 318-339):
take the top 20 of the tally sorted descending, compute each percentage
(faulting on a zero `total`), and keep those exceeding `thr`. -/
def highCostRows (t : Tally) (total : Int) (thr : Rat) : Option (List (Str × Rat)) :=
  (mapOpt (fun p => (pctOf total p.2).map (fun pc => (p.1, pc)))
      ((sortDescBy Prod.snd t).take 20)).map
    (fun l => l.filter (fun q => decide (thr < q.2)))

/-- Lines 318-329: inclusive view, threshold 2%. -/
def highInclusiveRows (st : Analyzer) : Option (List (Str × Rat)) :=
  highCostRows st.inclusive_time st.total_samples 2

/-- Lines 332-343: exclusive view, threshold 1%. -/
def highExclusiveRows (st : Analyzer) : Option (List (Str × Rat)) :=
  highCostRows st.exclusive_time st.total_samples 1

/-- A concrete input of 21 distinct one-frame stacks of equal weight 9:
every function holds 100/21 ≈ 4.76 percent of the total weight 189. -/
def linesC6 : List Str :=
  [ toL "a;9", toL "b;9", toL "c;9", toL "d;9", toL "e;9", toL "f;9"
  , toL "g;9", toL "h;9", toL "i;9", toL "j;9", toL "k;9", toL "l;9"
  , toL "m;9", toL "n;9", toL "o;9", toL "p;9", toL "q;9", toL "r;9"
  , toL "s;9", toL "t;9", toL "u;9" ]

/-! ### Association-list (tally) lemmas -/

theorem tallySum_cons (p : Str × Int) (t : Tally) :
    tallySum (p :: t) = p.2 + tallySum t := by
  simp [tallySum]

theorem tget_addTally (t : Tally) (k g : Str) (v : Int) :
    tget (addTally t k v) g = tget t g + if g = k then v else 0 := by
  induction t with
  | nil =>
    simp only [addTally, tget]
    split_ifs with h1 h2 h2
    · omega
    · exact absurd h1.symm h2
    · exact absurd h2.symm h1
    · omega
  | cons hd tl ih =>
    obtain ⟨a, b⟩ := hd
    simp only [addTally]
    by_cases hak : a = k
    · rw [if_pos hak]
      simp only [tget]
      by_cases hag : a = g
      · rw [if_pos hag, if_pos hag, if_pos (hag.symm.trans hak)]
      · rw [if_neg hag, if_neg hag, if_neg (fun hgk : g = k => hag (hak.trans hgk.symm))]
        omega
    · rw [if_neg hak]
      simp only [tget]
      by_cases hag : a = g
      · rw [if_pos hag, if_pos hag, if_neg (fun hgk : g = k => hak (hag.trans hgk))]
        omega
      · rw [if_neg hag, if_neg hag]
        exact ih

theorem tallySum_addTally (t : Tally) (k : Str) (v : Int) :
    tallySum (addTally t k v) = tallySum t + v := by
  induction t with
  | nil => simp [addTally, tallySum]
  | cons hd tl ih =>
    obtain ⟨a, b⟩ := hd
    simp only [addTally]
    split_ifs with h
    · rw [tallySum_cons, tallySum_cons]
      omega
    · rw [tallySum_cons, tallySum_cons, ih]
      omega

theorem mem_tkeys_addTally (t : Tally) (k g : Str) (v : Int) :
    g ∈ tkeys (addTally t k v) ↔ g ∈ tkeys t ∨ g = k := by
  induction t with
  | nil => simp [addTally, tkeys]
  | cons hd tl ih =>
    obtain ⟨a, b⟩ := hd
    simp only [addTally]
    split_ifs with hak
    · subst hak
      simp only [tkeys, List.map_cons, List.mem_cons]
      tauto
    · simp only [tkeys, List.map_cons, List.mem_cons] at ih ⊢
      rw [ih]
      tauto

theorem nodup_tkeys_addTally (t : Tally) (k : Str) (v : Int)
    (h : (tkeys t).Nodup) : (tkeys (addTally t k v)).Nodup := by
  induction t with
  | nil => simp [addTally, tkeys]
  | cons hd tl ih =>
    obtain ⟨a, b⟩ := hd
    simp only [tkeys, List.map_cons, List.nodup_cons] at h
    simp only [addTally]
    split_ifs with hak
    · simp only [tkeys, List.map_cons, List.nodup_cons]
      exact h
    · simp only [tkeys, List.map_cons, List.nodup_cons]
      refine ⟨?_, ih h.2⟩
      intro hmem
      rcases (mem_tkeys_addTally tl k a v).mp hmem with hc | hc
      · exact h.1 hc
      · exact hak hc

theorem tget_eq_zero_of_not_mem (t : Tally) (g : Str) (h : g ∉ tkeys t) :
    tget t g = 0 := by
  induction t with
  | nil => rfl
  | cons hd tl ih =>
    obtain ⟨a, b⟩ := hd
    simp only [tkeys, List.map_cons, List.mem_cons] at h
    push_neg at h
    simp only [tget]
    rw [if_neg (fun hh : a = g => h.1 hh.symm)]
    exact ih h.2

theorem mem_tkeys_of_tget_ne_zero (t : Tally) (g : Str) (h : tget t g ≠ 0) :
    g ∈ tkeys t := by
  by_contra hc
  exact h (tget_eq_zero_of_not_mem t g hc)

theorem tget_of_mem_nodup (t : Tally) (k : Str) (v : Int)
    (hnd : (tkeys t).Nodup) (hmem : (k, v) ∈ t) : tget t k = v := by
  induction t with
  | nil => simp at hmem
  | cons hd tl ih =>
    obtain ⟨a, b⟩ := hd
    simp only [tkeys, List.map_cons, List.nodup_cons] at hnd
    rcases List.mem_cons.mp hmem with hmem1 | hmem1
    · simp only [tget]
      injection hmem1.symm with h1 h2
      rw [if_pos h1]
      exact h2
    · simp only [tget]
      have hka : a ≠ k := by
        intro hh
        apply hnd.1
        rw [hh]
        exact List.mem_map.mpr ⟨(k, v), hmem1, rfl⟩
      rw [if_neg hka]
      exact ih hnd.2 hmem1

theorem exists_pos_of_tallySum_pos (t : Tally) (h : 0 < tallySum t) :
    ∃ p ∈ t, 0 < p.2 := by
  induction t with
  | nil => simp [tallySum] at h
  | cons p ps ih =>
    rw [tallySum_cons] at h
    by_cases hp : 0 < p.2
    · exact ⟨p, List.mem_cons_self p ps, hp⟩
    · obtain ⟨q, hq1, hq2⟩ := ih (by omega)
      exact ⟨q, List.mem_cons_of_mem p hq1, hq2⟩

/-! ### Fold lemmas for the per-stack tally updates -/

theorem occCount_nonneg (f : Str) (l : List Str) : 0 ≤ occCount f l := by
  induction l with
  | nil => simp [occCount]
  | cons x xs ih =>
    simp only [occCount]
    split_ifs <;> omega

theorem tget_foldl_addTally (stack : List Str) (t : Tally) (w : Int) (g : Str) :
    tget (stack.foldl (fun t2 f => addTally t2 f w) t) g
      = tget t g + occCount g stack * w := by
  induction stack generalizing t with
  | nil => simp [occCount]
  | cons x xs ih =>
    simp only [List.foldl_cons, occCount]
    rw [ih, tget_addTally]
    by_cases h : x = g
    · rw [if_pos h.symm, if_pos h]
      ring
    · rw [if_neg (fun hh : g = x => h hh.symm), if_neg h]
      ring

theorem tget_foldl_skip (stack : List Str) (t : Tally) (w : Int) (g : Str)
    (hg : g ≠ []) :
    tget (stack.foldl (fun t2 f => if f = [] then t2 else addTally t2 f w) t) g
      = tget t g + occCount g stack * w := by
  induction stack generalizing t with
  | nil => simp [occCount]
  | cons x xs ih =>
    simp only [List.foldl_cons, occCount]
    by_cases hx : x = []
    · rw [if_pos hx, ih, if_neg (fun hh : x = g => hg (hh ▸ hx))]
      ring
    · rw [if_neg hx, ih, tget_addTally]
      by_cases h : x = g
      · rw [if_pos h.symm, if_pos h]
        ring
      · rw [if_neg (fun hh : g = x => h hh.symm), if_neg h]
        ring

theorem tallySum_foldl_addTally (stack : List Str) (t : Tally) (w : Int) :
    tallySum (stack.foldl (fun t2 f => addTally t2 f w) t)
      = tallySum t + (stack.length : Int) * w := by
  induction stack generalizing t with
  | nil => simp
  | cons x xs ih =>
    simp only [List.foldl_cons, List.length_cons]
    rw [ih, tallySum_addTally]
    push_cast
    ring

theorem tallySum_foldl_skip (stack : List Str) (t : Tally) (w : Int) :
    tallySum (stack.foldl (fun t2 f => if f = [] then t2 else addTally t2 f w) t)
      = tallySum t + ((stack.length : Int) - occCount [] stack) * w := by
  induction stack generalizing t with
  | nil => simp [occCount]
  | cons x xs ih =>
    simp only [List.foldl_cons, List.length_cons, occCount]
    by_cases hx : x = []
    · rw [if_pos hx, ih, if_pos hx]
      push_cast
      ring
    · rw [if_neg hx, ih, tallySum_addTally, if_neg hx]
      push_cast
      ring

theorem mem_tkeys_foldl_of_mem (stack : List Str) (t : Tally) (w : Int) (g : Str)
    (h : g ∈ tkeys t) :
    g ∈ tkeys (stack.foldl (fun t2 f => addTally t2 f w) t) := by
  induction stack generalizing t with
  | nil => exact h
  | cons x xs ih =>
    simp only [List.foldl_cons]
    exact ih _ ((mem_tkeys_addTally t x g w).mpr (Or.inl h))

theorem mem_tkeys_foldl_of_mem_stack (stack : List Str) (t : Tally) (w : Int)
    (g : Str) (h : g ∈ stack) :
    g ∈ tkeys (stack.foldl (fun t2 f => addTally t2 f w) t) := by
  induction stack generalizing t with
  | nil => simp at h
  | cons x xs ih =>
    simp only [List.foldl_cons]
    rcases List.mem_cons.mp h with h1 | h1
    · exact mem_tkeys_foldl_of_mem xs _ w g
        ((mem_tkeys_addTally t x g w).mpr (Or.inr h1))
    · exact ih _ h1

theorem not_mem_tkeys_foldl_skip (stack : List Str) (t : Tally) (w : Int)
    (h : [] ∉ tkeys t) :
    [] ∉ tkeys (stack.foldl (fun t2 f => if f = [] then t2 else addTally t2 f w) t) := by
  induction stack generalizing t with
  | nil => exact h
  | cons x xs ih =>
    simp only [List.foldl_cons]
    by_cases hx : x = []
    · rw [if_pos hx]
      exact ih _ h
    · rw [if_neg hx]
      refine ih _ ?_
      intro hc
      rcases (mem_tkeys_addTally t x [] w).mp hc with hc1 | hc1
      · exact h hc1
      · exact hx hc1.symm

theorem foldl_skip_eq_foldl (stack : List Str) (t : Tally) (w : Int)
    (h : [] ∉ stack) :
    stack.foldl (fun t2 f => if f = [] then t2 else addTally t2 f w) t
      = stack.foldl (fun t2 f => addTally t2 f w) t := by
  induction stack generalizing t with
  | nil => rfl
  | cons x xs ih =>
    simp only [List.foldl_cons]
    rw [if_neg (fun hh : x = [] => h (hh ▸ List.mem_cons_self x xs))]
    exact ih _ (fun hc => h (List.mem_cons_of_mem x hc))

/-! ### Call-edge lemmas -/

theorem mem_eget_addEdge (m : EdgeMap) (a b f g : Str) :
    g ∈ eget (addEdge m a b) f ↔ g ∈ eget m f ∨ (f = a ∧ g = b) := by
  induction m with
  | nil =>
    simp only [addEdge, eget]
    by_cases h : a = f
    · rw [if_pos h]
      simp [h.symm, List.mem_singleton]
    · rw [if_neg h]
      simp only [List.not_mem_nil, false_or, false_iff]
      rintro ⟨hh, _⟩
      exact h hh.symm
  | cons hd tl ih =>
    obtain ⟨k, s⟩ := hd
    simp only [addEdge]
    by_cases hka : k = a
    · rw [if_pos hka]
      simp only [eget]
      by_cases hkf : k = f
      · rw [if_pos hkf, if_pos hkf]
        have hfa : f = a := hkf.symm.trans hka
        by_cases hbs : b ∈ s
        · rw [if_pos hbs]
          constructor
          · exact fun hh => Or.inl hh
          · rintro (hh | ⟨hh1, hh2⟩)
            · exact hh
            · exact hh2 ▸ hbs
        · rw [if_neg hbs]
          simp [List.mem_append, hfa]
      · rw [if_neg hkf, if_neg hkf]
        have hfa : ¬(f = a) := fun hh => hkf (hka.trans hh.symm)
        simp [hfa]
    · rw [if_neg hka]
      simp only [eget]
      by_cases hkf : k = f
      · rw [if_pos hkf, if_pos hkf]
        have hfa : ¬(f = a) := fun hh => hka (hkf.trans hh)
        simp [hfa]
      · rw [if_neg hkf, if_neg hkf]
        exact ih

theorem mem_eget_addEdges (S : List Str) (m : EdgeMap) (f g : Str) :
    g ∈ eget (addEdges m S) f ↔ g ∈ eget m f ∨ (f, g) ∈ S.zip S.tail := by
  induction S generalizing m with
  | nil => simp [addEdges]
  | cons a rest ih =>
    cases rest with
    | nil => simp [addEdges]
    | cons b rest2 =>
      show g ∈ eget (addEdges (addEdge m a b) (b :: rest2)) f ↔ _
      rw [ih]
      rw [mem_eget_addEdge]
      simp only [List.zip_cons_cons, List.tail_cons, List.mem_cons, Prod.mk.injEq]
      tauto

/-! ### Splitting lemmas -/

theorem splitChar_ne_nil (sep : Char) (s : Str) : splitChar sep s ≠ [] := by
  cases s with
  | nil => simp [splitChar]
  | cons c cs =>
    unfold splitChar
    cases splitChar sep cs with
    | nil => simp
    | cons r rs =>
      dsimp only
      split <;> simp

theorem splitChar_eq_single (sep : Char) (s : Str) (h : sep ∉ s) :
    splitChar sep s = [s] := by
  induction s with
  | nil => rfl
  | cons c cs ih =>
    unfold splitChar
    rw [ih (fun hc => h (List.mem_cons_of_mem c hc))]
    dsimp only
    rw [if_neg (fun hc : c = sep => h (hc ▸ List.mem_cons_self c cs))]

theorem breakAtFirst_eq_none (sep : Char) (s : Str) (h : sep ∉ s) :
    breakAtFirst sep s = none := by
  induction s with
  | nil => rfl
  | cons c cs ih =>
    unfold breakAtFirst
    rw [if_neg (fun hc : c = sep => h (hc ▸ List.mem_cons_self c cs))]
    rw [ih (fun hc => h (List.mem_cons_of_mem c hc))]

theorem breakAtFirst_append (sep : Char) (b a : Str) (h : sep ∉ b) :
    breakAtFirst sep (b ++ sep :: a) = some (b, a) := by
  induction b with
  | nil =>
    unfold breakAtFirst
    simp
  | cons c cs ih =>
    rw [List.cons_append]
    unfold breakAtFirst
    rw [if_neg (fun hc : c = sep => h (hc ▸ List.mem_cons_self c cs))]
    rw [ih (fun hc => h (List.mem_cons_of_mem c hc))]

theorem rsplit1_single (sep : Char) (s : Str) (h : sep ∉ s) :
    rsplit1 sep s = [s] := by
  unfold rsplit1
  rw [breakAtFirst_eq_none sep s.reverse (by simpa using h)]

theorem rsplit1_of_split (sep : Char) (pre suf : Str) (h : sep ∉ suf) :
    rsplit1 sep (pre ++ sep :: suf) = [pre, suf] := by
  unfold rsplit1
  have hrev : (pre ++ sep :: suf).reverse = suf.reverse ++ sep :: pre.reverse := by
    simp [List.reverse_append]
  rw [hrev, breakAtFirst_append sep suf.reverse pre.reverse (by simpa using h)]
  simp

/-! ### Sorting lemmas -/

theorem perm_insertDescBy {α : Type _} (key : α → Int) (x : α) (l : List α) :
    List.Perm (insertDescBy key x l) (x :: l) := by
  induction l with
  | nil => exact List.Perm.refl _
  | cons y ys ih =>
    unfold insertDescBy
    split
    · exact (List.Perm.cons y ih).trans (List.Perm.swap x y ys)
    · exact List.Perm.refl _

theorem perm_sortDescBy {α : Type _} (key : α → Int) (l : List α) :
    List.Perm (sortDescBy key l) l := by
  induction l with
  | nil => exact List.Perm.refl _
  | cons x xs ih =>
    unfold sortDescBy
    exact (perm_insertDescBy key x (sortDescBy key xs)).trans (List.Perm.cons x ih)

theorem mem_insertDescBy {α : Type _} (key : α → Int) (x y : α) (l : List α) :
    y ∈ insertDescBy key x l ↔ y = x ∨ y ∈ l := by
  rw [(perm_insertDescBy key x l).mem_iff]
  simp

theorem mem_sortDescBy {α : Type _} (key : α → Int) (x : α) (l : List α) :
    x ∈ sortDescBy key l ↔ x ∈ l :=
  (perm_sortDescBy key l).mem_iff

theorem sorted_insertDescBy {α : Type _} (key : α → Int) (x : α) (l : List α)
    (h : List.Pairwise (fun a b => key b ≤ key a) l) :
    List.Pairwise (fun a b => key b ≤ key a) (insertDescBy key x l) := by
  induction l with
  | nil => simp [insertDescBy]
  | cons y ys ih =>
    rw [List.pairwise_cons] at h
    unfold insertDescBy
    split
    · rw [List.pairwise_cons]
      refine ⟨?_, ih h.2⟩
      intro b hb
      rcases (mem_insertDescBy key x b ys).mp hb with hb1 | hb1
      · subst hb1
        omega
      · exact h.1 b hb1
    · rw [List.pairwise_cons]
      refine ⟨?_, List.pairwise_cons.mpr h⟩
      intro b hb
      rcases List.mem_cons.mp hb with hb1 | hb1
      · subst hb1
        omega
      · have := h.1 b hb1
        omega

theorem sorted_sortDescBy {α : Type _} (key : α → Int) (l : List α) :
    List.Pairwise (fun a b => key b ≤ key a) (sortDescBy key l) := by
  induction l with
  | nil => simp [sortDescBy]
  | cons x xs ih => exact sorted_insertDescBy key x _ ih

/-! ### mapOpt lemmas -/

theorem mapOpt_eq_some_map {α β : Type _} (f : α → Option β) (g : α → β)
    (l : List α) (h : ∀ x ∈ l, f x = some (g x)) :
    mapOpt f l = some (l.map g) := by
  induction l with
  | nil => rfl
  | cons x xs ih =>
    unfold mapOpt
    rw [h x (List.mem_cons_self x xs), ih (fun y hy => h y (List.mem_cons_of_mem x hy))]
    simp

theorem mapOpt_eq_none {α β : Type _} (f : α → Option β) (l : List α) (x : α)
    (hx : x ∈ l) (h : f x = none) : mapOpt f l = none := by
  induction l with
  | nil => simp at hx
  | cons y ys ih =>
    unfold mapOpt
    rcases List.mem_cons.mp hx with h1 | h1
    · rw [← h1, h]
    · cases hf : f y with
      | none => rfl
      | some b => rw [ih h1]

/-! ### Component equations for the aggregation step -/

theorem aggregate_total (st : Analyzer) (stack : List Str) (w : Int) :
    (aggregateSample st stack w).total_samples = st.total_samples := by
  unfold aggregateSample
  cases stack.getLast? <;> dsimp only <;> split_ifs <;> rfl

theorem aggregate_category (st : Analyzer) (stack : List Str) (w : Int) :
    (aggregateSample st stack w).category_counts = st.category_counts := by
  unfold aggregateSample
  cases stack.getLast? <;> dsimp only <;> split_ifs <;> rfl

theorem aggregate_inclusive (st : Analyzer) (stack : List Str) (w : Int) :
    (aggregateSample st stack w).inclusive_time
      = stack.foldl (fun t2 f => addTally t2 f w) st.inclusive_time := by
  unfold aggregateSample
  cases stack.getLast? <;> dsimp only <;> split_ifs <;> rfl

theorem aggregate_func_counts (st : Analyzer) (stack : List Str) (w : Int) :
    (aggregateSample st stack w).func_counts
      = stack.foldl (fun t2 f => if f = [] then t2 else addTally t2 f w) st.func_counts := by
  unfold aggregateSample
  cases stack.getLast? <;> dsimp only <;> split_ifs <;> rfl

theorem aggregate_call_relations (st : Analyzer) (stack : List Str) (w : Int) :
    (aggregateSample st stack w).call_relations
      = addEdges st.call_relations stack := by
  unfold aggregateSample
  cases stack.getLast? <;> dsimp only <;> split_ifs <;> rfl

theorem aggregate_exclusive (st : Analyzer) (stack : List Str) (w : Int) :
    (aggregateSample st stack w).exclusive_time
      = match stack.getLast? with
        | none => st.exclusive_time
        | some leaf => addTally st.exclusive_time leaf w := by
  unfold aggregateSample
  cases stack.getLast? <;> dsimp only <;> split_ifs <;> rfl

theorem aggregate_leaf_counts (st : Analyzer) (stack : List Str) (w : Int) :
    (aggregateSample st stack w).leaf_counts
      = match stack.getLast? with
        | none => st.leaf_counts
        | some leaf => addTally st.leaf_counts leaf w := by
  unfold aggregateSample
  cases stack.getLast? <;> dsimp only <;> split_ifs <;> rfl

theorem aggregate_malloc (st : Analyzer) (stack : List Str) (w : Int) :
    (aggregateSample st stack w).malloc_counts
      = match stack.getLast? with
        | none => st.malloc_counts
        | some leaf =>
          if isAllocName leaf then addTally st.malloc_counts leaf w
          else st.malloc_counts := by
  unfold aggregateSample
  cases stack.getLast? with
  | none => rfl
  | some leaf =>
    dsimp only
    split_ifs <;> rfl

theorem aggregate_free (st : Analyzer) (stack : List Str) (w : Int) :
    (aggregateSample st stack w).free_counts
      = match stack.getLast? with
        | none => st.free_counts
        | some leaf =>
          if isAllocName leaf = false ∧ isSub (toL "free") leaf = true then
            addTally st.free_counts leaf w
          else st.free_counts := by
  unfold aggregateSample
  cases stack.getLast? with
  | none => rfl
  | some leaf =>
    dsimp only
    by_cases h1 : isAllocName leaf
    · rw [if_pos h1, if_neg (by simp [h1])]
    · rw [if_neg h1]
      by_cases h2 : isSub (toL "free") leaf
      · rw [if_pos h2, if_pos (by simp [h1, h2])]
      · rw [if_neg h2, if_neg (by simp [h1, h2])]

/-! ### Component equations for one loop iteration of `parse_file` -/

theorem parseStripped_fst_ne_nil (l : Str) : (parseStripped l).1 ≠ [] := by
  unfold parseStripped
  dsimp only
  split
  · split
    · exact splitChar_ne_nil ';' _
    · exact splitChar_ne_nil ';' _
  · exact splitChar_ne_nil ';' _

theorem processLine_skip (st : Analyzer) (l : Str) (h : strip l = []) :
    processLine st l = { st with line_count := st.line_count + 1 } := by
  unfold processLine
  rw [if_pos h]

theorem processLine_accept (st : Analyzer) (l : Str) (h : strip l ≠ []) :
    processLine st l = aggregateSample
      { st with line_count := st.line_count + 1
                total_samples := st.total_samples + (parseStripped (strip l)).2
                parsed_lines := st.parsed_lines + 1 }
      (parseStripped (strip l)).1 (parseStripped (strip l)).2 := by
  unfold processLine
  rw [if_neg h]
  dsimp only
  rw [if_neg (parseStripped_fst_ne_nil (strip l))]

theorem foldl_processLine_inv (P : Analyzer → Prop)
    (hstep : ∀ st l, P st → P (processLine st l)) :
    ∀ (lines : List Str) (st : Analyzer), P st → P (lines.foldl processLine st) := by
  intro lines
  induction lines with
  | nil => exact fun st h => h
  | cons l ls ih => exact fun st h => ih _ (hstep st l h)

/-! ### Claim C3: exclusive tally sums to the total sample weight -/

theorem exclusive_sum_step (st : Analyzer) (l : Str)
    (h : tallySum st.exclusive_time = st.total_samples) :
    tallySum (processLine st l).exclusive_time = (processLine st l).total_samples := by
  by_cases hl : strip l = []
  · rw [processLine_skip st l hl]
    exact h
  · rw [processLine_accept st l hl]
    rw [aggregate_total, aggregate_exclusive]
    have hne := parseStripped_fst_ne_nil (strip l)
    rw [List.getLast?_eq_getLast _ hne]
    dsimp only
    rw [tallySum_addTally]
    omega

/-- C3: for every input, the sum over all frame names of the Exclusive
Tally (`exclusive_time`) equals the total sample weight `total_samples` —
every accepted line's weight is added to exactly one leaf frame's
exclusive total. -/
theorem C3_exclusive_tally_total (lines : List Str) :
    tallySum (parseFile lines).exclusive_time = (parseFile lines).total_samples := by
  unfold parseFile
  dsimp only
  exact foldl_processLine_inv
    (fun st => tallySum st.exclusive_time = st.total_samples)
    exclusive_sum_step lines initAnalyzer rfl

/-! ### Claim C1: category buckets sum to the Function Tally, not to the
total sample weight -/

theorem tallySum_categorize (fc cc : Tally) :
    tallySum (categorize fc cc) = tallySum cc + tallySum fc := by
  induction fc generalizing cc with
  | nil => simp [categorize, tallySum]
  | cons p ps ih =>
    unfold categorize at ih ⊢
    rw [List.foldl_cons, ih, tallySum_addTally, tallySum_cons]
    ring

theorem category_counts_foldl (lines : List Str) :
    (lines.foldl processLine initAnalyzer).category_counts = [] := by
  refine foldl_processLine_inv (fun st => st.category_counts = []) ?_ lines initAnalyzer rfl
  intro st l h
  by_cases hl : strip l = []
  · rw [processLine_skip st l hl]
    exact h
  · rw [processLine_accept st l hl, aggregate_category]
    exact h

/-- C1 counterexample: on the single input line `a;b;3` (stack `[a, b]`,
weight 3) the category buckets sum to 6 (each of the two frames
contributes the full weight) while the total sample weight is 3. -/
theorem C1_counterexample :
    ¬ (tallySum (parseFile [toL "a;b;3"]).category_counts
        = (parseFile [toL "a;b;3"]).total_samples) := by decide

/-- C1 amended: the sum of the category buckets (including the fallback
bucket) equals the sum of the Function Tally `func_counts` — each accepted
line contributes its weight once per non-empty frame occurrence, which
exceeds the total sample weight whenever a stack has more than one
frame. -/
theorem C1_amended_category_sum (lines : List Str) :
    tallySum (parseFile lines).category_counts
      = tallySum (parseFile lines).func_counts := by
  unfold parseFile
  dsimp only
  rw [tallySum_categorize, category_counts_foldl]
  simp [tallySum]

/-! ### Claim C2: zero-denominator behaviour of report percentages -/

theorem inclusiveTopRows_of_total_ne_zero (st : Analyzer) (topN : Nat)
    (h : st.total_samples ≠ 0) :
    inclusiveTopRows st topN
      = some (((sortDescBy Prod.snd st.inclusive_time).take topN).map
          (fun p => (p.1, p.2, (p.2 : Rat) / (st.total_samples : Rat) * 100))) := by
  unfold inclusiveTopRows
  apply mapOpt_eq_some_map
  intro p hp
  unfold pctOf
  rw [if_neg h]
  rfl

theorem inclusiveTopRows_fault (st : Analyzer) (topN : Nat)
    (h : st.total_samples = 0)
    (hne : (sortDescBy Prod.snd st.inclusive_time).take topN ≠ []) :
    inclusiveTopRows st topN = none := by
  unfold inclusiveTopRows
  obtain ⟨x, xs, hx⟩ := List.exists_cons_of_ne_nil hne
  apply mapOpt_eq_none _ _ x (by rw [hx]; exact List.mem_cons_self x xs)
  unfold pctOf
  rw [if_pos h]
  rfl

/-- C2 counterexample: the input consisting of the single accepted line
`a 0` has one accepted line and total sample weight 0, and
`print_inclusive_time_top` divides `time_val / total_samples` without any
guard — the run faults (modelled as `none`) instead of emitting a
"no data" result. -/
theorem C2_counterexample :
    inclusiveTopRows (parseFile [toL "a 0"]) 20 = none := by decide

/-- C2 amended: every percentage of the inclusive ranking is
`weight / totalSampleWeight × 100`, computed without any zero guard: when
the total sample weight is non-zero the rows are produced by that formula,
and when the total sample weight is zero and the (truncated) ranking is
non-empty the division faults (`none`) — the spec's claimed "no data"
guard is absent from this report section. -/
theorem C2_amended_inclusive_percentages :
    (∀ (lines : List Str) (topN : Nat), (parseFile lines).total_samples ≠ 0 →
        inclusiveTopRows (parseFile lines) topN
          = some (((sortDescBy Prod.snd (parseFile lines).inclusive_time).take topN).map
              (fun p => (p.1, p.2,
                (p.2 : Rat) / ((parseFile lines).total_samples : Rat) * 100))))
  ∧ (∀ (lines : List Str) (topN : Nat), (parseFile lines).total_samples = 0 →
        (sortDescBy Prod.snd (parseFile lines).inclusive_time).take topN ≠ [] →
        inclusiveTopRows (parseFile lines) topN = none) :=
  ⟨fun lines topN h => inclusiveTopRows_of_total_ne_zero _ _ h,
   fun lines topN h hne => inclusiveTopRows_fault _ _ h hne⟩

/-- C2 amended, witness at the concrete input `a;2`. -/
theorem C2_amended_witness :
    inclusiveTopRows (parseFile [toL "a;2"]) 20
      = some (((sortDescBy Prod.snd (parseFile [toL "a;2"]).inclusive_time).take 20).map
          (fun p => (p.1, p.2,
            (p.2 : Rat) / ((parseFile [toL "a;2"]).total_samples : Rat) * 100))) :=
  C2_amended_inclusive_percentages.1 [toL "a;2"] 20 (by decide)

/-! ### Claim C4: tolerant line parsing -/

theorem parseStripped_semi (s pre suf : Str) (hs : s = pre ++ ';' :: suf)
    (hn : (';' : Char) ∉ suf) :
    parseStripped s = match pyInt suf with
      | some n => (splitChar ';' pre, n)
      | none => (splitChar ';' s, 1) := by
  subst hs
  unfold parseStripped
  rw [rsplit1_of_split ';' pre suf hn]
  dsimp only
  rw [if_neg (by simp)]

theorem parseStripped_space (s pre suf : Str) (hs : s = pre ++ ' ' :: suf)
    (hsemi : (';' : Char) ∉ s) (hn : (' ' : Char) ∉ suf) :
    parseStripped s = match pyInt suf with
      | some n => (splitChar ';' pre, n)
      | none => (splitChar ';' s, 1) := by
  subst hs
  unfold parseStripped
  rw [rsplit1_single ';' _ hsemi, rsplit1_of_split ' ' pre suf hn]
  dsimp only
  rw [if_pos ⟨by simp, List.mem_append.mpr (Or.inr (List.mem_cons_self _ _))⟩]

theorem parseStripped_plain (s : Str) (hsemi : (';' : Char) ∉ s)
    (hsp : (' ' : Char) ∉ s) : parseStripped s = ([s], 1) := by
  unfold parseStripped
  rw [rsplit1_single ';' s hsemi]
  dsimp only
  rw [if_neg (by simp [hsp])]
  rw [splitChar_eq_single ';' s hsemi]

/-- C4: every line that is non-empty after stripping yields exactly one
Sample with a non-empty stack (no line aborts the run); writing the
stripped line as `pre ++ ';' :: suf` with no semicolon in `suf` (the split
at the LAST semicolon), the trailing token `suf` becomes the weight when
it parses as an integer, and otherwise the WHOLE line becomes the stack
string (split on semicolons) with weight 1; with no semicolon the split
falls back to the last space in the same way; with neither separator the
whole line is a one-frame stack of weight 1; in particular
`a;b;c nine` gives stack `["a", "b", "c nine"]` with weight 1 and
`onlyonefield` gives stack `["onlyonefield"]` with weight 1. -/
theorem C4_tolerant_line_parsing :
    (∀ line : Str, strip line ≠ [] →
        ∃ stack w, parseLine line = some (stack, w) ∧ stack ≠ [])
  ∧ (∀ line pre suf : Str, strip line = pre ++ ';' :: suf → (';' : Char) ∉ suf →
        (∀ n : Int, pyInt suf = some n →
            parseStripped (strip line) = (splitChar ';' pre, n))
        ∧ (pyInt suf = none →
            parseStripped (strip line) = (splitChar ';' (strip line), 1)))
  ∧ (∀ line pre suf : Str, strip line = pre ++ ' ' :: suf →
        (';' : Char) ∉ strip line → (' ' : Char) ∉ suf →
        (∀ n : Int, pyInt suf = some n →
            parseStripped (strip line) = (splitChar ';' pre, n))
        ∧ (pyInt suf = none →
            parseStripped (strip line) = (splitChar ';' (strip line), 1)))
  ∧ (∀ line : Str, (';' : Char) ∉ strip line → (' ' : Char) ∉ strip line →
        strip line ≠ [] → parseStripped (strip line) = ([strip line], 1))
  ∧ parseStripped (toL "a;b;c nine") = ([toL "a", toL "b", toL "c nine"], 1)
  ∧ parseStripped (toL "onlyonefield") = ([toL "onlyonefield"], 1) := by
  refine ⟨?_, ?_, ?_, ?_, by decide, by decide⟩
  · intro line h
    refine ⟨(parseStripped (strip line)).1, (parseStripped (strip line)).2, ?_,
      parseStripped_fst_ne_nil (strip line)⟩
    unfold parseLine
    rw [if_neg h]
  · intro line pre suf hs hn
    constructor
    · intro n hsome
      rw [parseStripped_semi (strip line) pre suf hs hn, hsome]
    · intro hnone
      rw [parseStripped_semi (strip line) pre suf hs hn, hnone]
  · intro line pre suf hs hsemi hn
    constructor
    · intro n hsome
      rw [parseStripped_space (strip line) pre suf hs hsemi hn, hsome]
    · intro hnone
      rw [parseStripped_space (strip line) pre suf hs hsemi hn, hnone]
  · intro line hsemi hsp _
    exact parseStripped_plain (strip line) hsemi hsp

/-- C4 witness at the concrete line `x;7`: it yields exactly one Sample
with a non-empty stack. -/
theorem C4_witness :
    ∃ stack w, parseLine (toL "x;7") = some (stack, w) ∧ stack ≠ [] :=
  C4_tolerant_line_parsing.1 (toL "x;7") (by decide)

/-! ### Claim C5: per-sample aggregation -/

/-- C5: aggregating one Sample with stack `pre ++ [leaf]` and weight `w`
adds `w` to the Function Tally (`inclusive_time`) of the frame at every
position — a frame occurring `k` times gains `k·w` — adds `w` to the
Exclusive and Leaf tallies of the final frame, and inserts exactly the
adjacent pairs of the stack into the Call Edge Set with set semantics;
in particular the Sample `a;a;a` with weight 5 yields
`FunctionTally[a] = 15`, `ExclusiveTally[a] = 5` and
`CallEdgeSet[a] = {a}`. -/
theorem C5_aggregation_per_sample (st : Analyzer) (pre : List Str) (leaf : Str)
    (w : Int) (f g : Str) :
    tget (aggregateSample st (pre ++ [leaf]) w).inclusive_time f
        = tget st.inclusive_time f + occCount f (pre ++ [leaf]) * w
  ∧ tget (aggregateSample st (pre ++ [leaf]) w).exclusive_time leaf
        = tget st.exclusive_time leaf + w
  ∧ tget (aggregateSample st (pre ++ [leaf]) w).leaf_counts leaf
        = tget st.leaf_counts leaf + w
  ∧ (g ∈ eget (aggregateSample st (pre ++ [leaf]) w).call_relations f
      ↔ g ∈ eget st.call_relations f
        ∨ (f, g) ∈ (pre ++ [leaf]).zip (pre ++ [leaf]).tail)
  ∧ tget (aggregateSample initAnalyzer [toL "a", toL "a", toL "a"] 5).inclusive_time
        (toL "a") = 15
  ∧ tget (aggregateSample initAnalyzer [toL "a", toL "a", toL "a"] 5).func_counts
        (toL "a") = 15
  ∧ tget (aggregateSample initAnalyzer [toL "a", toL "a", toL "a"] 5).exclusive_time
        (toL "a") = 5
  ∧ eget (aggregateSample initAnalyzer [toL "a", toL "a", toL "a"] 5).call_relations
        (toL "a") = [toL "a"] := by
  refine ⟨?_, ?_, ?_, ?_, by decide, by decide, by decide, by decide⟩
  · rw [aggregate_inclusive, tget_foldl_addTally]
  · rw [aggregate_exclusive, List.getLast?_concat]
    dsimp only
    rw [tget_addTally, if_pos rfl]
  · rw [aggregate_leaf_counts, List.getLast?_concat]
    dsimp only
    rw [tget_addTally, if_pos rfl]
  · rw [aggregate_call_relations, mem_eget_addEdges]

/-! ### Claim C6: high-cost view truncates to the top 20 before filtering -/

theorem highCostRows_spec (t : Tally) (total : Int) (thr : Rat) (h : total ≠ 0) :
    highCostRows t total thr
      = some ((((sortDescBy Prod.snd t).take 20).map
          (fun p => (p.1, (p.2 : Rat) / (total : Rat) * 100))).filter
            (fun q => decide (thr < q.2))) := by
  unfold highCostRows
  rw [mapOpt_eq_some_map _ (fun p => (p.1, (p.2 : Rat) / (total : Rat) * 100)) _
    (fun p _ => by unfold pctOf; rw [if_neg h]; rfl)]
  rfl

theorem highCostRows_mem (t : Tally) (total : Int) (thr : Rat) (h : total ≠ 0)
    (q : Str × Rat) :
    (∃ l, highCostRows t total thr = some l ∧ q ∈ l) ↔
      ∃ p ∈ (sortDescBy Prod.snd t).take 20,
        q = (p.1, (p.2 : Rat) / (total : Rat) * 100) ∧ thr < q.2 := by
  rw [highCostRows_spec t total thr h]
  constructor
  · rintro ⟨l, hl, hq⟩
    rw [Option.some.injEq] at hl
    rw [← hl] at hq
    rw [List.mem_filter] at hq
    obtain ⟨hq1, hq2⟩ := hq
    obtain ⟨p, hp, hpq⟩ := List.mem_map.mp hq1
    exact ⟨p, hp, hpq.symm, of_decide_eq_true hq2⟩
  · rintro ⟨p, hp, hq1, hq2⟩
    refine ⟨_, rfl, ?_⟩
    rw [List.mem_filter]
    exact ⟨List.mem_map.mpr ⟨p, hp, hq1.symm⟩, decide_eq_true hq2⟩

theorem linesC6_take_names :
    ((sortDescBy Prod.snd (parseFile linesC6).inclusive_time).take 20).map Prod.fst
      = [toL "a", toL "b", toL "c", toL "d", toL "e", toL "f", toL "g", toL "h",
         toL "i", toL "j", toL "k", toL "l", toL "m", toL "n", toL "o", toL "p",
         toL "q", toL "r", toL "s", toL "t"] := by decide

theorem linesC6_total : (parseFile linesC6).total_samples = 189 := by decide

theorem linesC6_u_weight :
    tget (parseFile linesC6).inclusive_time (toL "u") = 9 := by decide

/-- C6: the high-cost outlier view keeps, of the tally sorted descending by
weight (a stable descending sort, a permutation of the tally), only the
top-20 window, and reports exactly the members of that window whose
percentage `weight / total × 100` exceeds the threshold (2 for the
inclusive view, 1 for the exclusive view); consequently, on a concrete
input with 21 functions all above the threshold, the function ranked 21st
(`u`) is absent from the report even though its percentage exceeds 2. -/
theorem C6_high_cost_top20_window :
    (∀ (t : Tally) (total : Int) (thr : Rat), total ≠ 0 → ∀ q : Str × Rat,
        ((∃ l, highCostRows t total thr = some l ∧ q ∈ l) ↔
          ∃ p ∈ (sortDescBy Prod.snd t).take 20,
            q = (p.1, (p.2 : Rat) / (total : Rat) * 100) ∧ thr < q.2))
  ∧ (∀ t : Tally, List.Pairwise (fun a b => b.2 ≤ a.2) (sortDescBy Prod.snd t)
        ∧ List.Perm (sortDescBy Prod.snd t) t)
  ∧ (∀ st : Analyzer,
        highInclusiveRows st = highCostRows st.inclusive_time st.total_samples 2
        ∧ highExclusiveRows st = highCostRows st.exclusive_time st.total_samples 1)
  ∧ (∃ l, highInclusiveRows (parseFile linesC6) = some l
        ∧ toL "u" ∉ l.map Prod.fst
        ∧ 2 < (tget (parseFile linesC6).inclusive_time (toL "u") : Rat)
            / ((parseFile linesC6).total_samples : Rat) * 100) := by
  refine ⟨fun t total thr h q => highCostRows_mem t total thr h q,
    fun t => ⟨sorted_sortDescBy _ _, perm_sortDescBy _ _⟩,
    fun st => ⟨rfl, rfl⟩, ?_⟩
  have htot : (parseFile linesC6).total_samples ≠ 0 := by decide
  refine ⟨_, highCostRows_spec (parseFile linesC6).inclusive_time
      (parseFile linesC6).total_samples 2 htot, ?_, ?_⟩
  · intro hmem
    obtain ⟨q, hq, hqf⟩ := List.mem_map.mp hmem
    rw [List.mem_filter] at hq
    obtain ⟨p, hp, hpq⟩ := List.mem_map.mp hq.1
    have humem : toL "u" ∈ ((sortDescBy Prod.snd
        (parseFile linesC6).inclusive_time).take 20).map Prod.fst := by
      refine List.mem_map.mpr ⟨p, hp, ?_⟩
      rw [← hpq] at hqf
      exact hqf
    rw [linesC6_take_names] at humem
    exact absurd humem (by decide)
  · rw [linesC6_u_weight, linesC6_total]
    norm_num

/-- C6 witness: the general window characterisation applied at a concrete
one-entry tally with total weight 1 and threshold 2. -/
theorem C6_witness :
    (∃ l, highCostRows [(toL "a", 1)] 1 2 = some l ∧ (toL "a", (1 : Rat)) ∈ l) ↔
      ∃ p ∈ (sortDescBy Prod.snd [(toL "a", 1)]).take 20,
        (toL "a", (1 : Rat)) = (p.1, (p.2 : Rat) / ((1 : Int) : Rat) * 100)
          ∧ (2 : Rat) < (toL "a", (1 : Rat)).2 :=
  C6_high_cost_top20_window.1 [(toL "a", 1)] 1 2 (by decide) (toL "a", 1)

/-! ### Claim C7: leak-candidate qualification and ranking -/

theorem mem_dedupAcc (l : List Str) (seen : List Str) (x : Str) :
    x ∈ dedupAcc seen l ↔ x ∈ l ∧ x ∉ seen := by
  induction l generalizing seen with
  | nil => simp [dedupAcc]
  | cons y ys ih =>
    unfold dedupAcc
    by_cases hy : y ∈ seen
    · rw [if_pos hy, ih]
      simp only [List.mem_cons]
      constructor
      · rintro ⟨h1, h2⟩
        exact ⟨Or.inr h1, h2⟩
      · rintro ⟨h1 | h1, h2⟩
        · exact absurd (h1 ▸ hy) h2
        · exact ⟨h1, h2⟩
    · rw [if_neg hy]
      simp only [List.mem_cons, ih, List.mem_cons]
      by_cases hxy : x = y
      · subst hxy
        simp [hy]
      · constructor
        · rintro (h1 | ⟨h1, h2⟩)
          · exact absurd h1 hxy
          · refine ⟨Or.inr h1, ?_⟩
            intro hc
            exact h2 (Or.inr hc)
        · rintro ⟨h1 | h1, h2⟩
          · exact absurd h1 hxy
          · refine Or.inr ⟨h1, ?_⟩
            intro hc
            rcases hc with hc1 | hc1
            · exact hxy hc1
            · exact h2 hc1

theorem mem_memoryFuncs (mc fc : Tally) (k : Str) :
    k ∈ memoryFuncs mc fc ↔ k ∈ tkeys mc ∨ k ∈ tkeys fc := by
  unfold memoryFuncs
  rw [mem_dedupAcc]
  simp

theorem mem_memoryStats (mc fc : Tally) (f : Str) (m fr tt : Int) :
    (f, m, fr, tt) ∈ memoryStats mc fc ↔
      f ∈ memoryFuncs mc fc ∧ m = tget mc f ∧ fr = tget fc f
        ∧ tt = m + fr ∧ 0 < tt := by
  unfold memoryStats
  rw [mem_sortDescBy, List.mem_filterMap]
  constructor
  · rintro ⟨g, hg, hr⟩
    dsimp only at hr
    split_ifs at hr with hpos
    · rw [Option.some.injEq] at hr
      injection hr with h1 hr
      injection hr with h2 hr
      injection hr with h3 h4
      subst h1
      subst h2
      subst h3
      subst h4
      exact ⟨hg, rfl, rfl, rfl, hpos⟩
  · rintro ⟨h1, h2, h3, h4, h5⟩
    refine ⟨f, h1, ?_⟩
    dsimp only
    rw [if_pos (by omega : 0 < tget mc f + tget fc f)]
    rw [Option.some.injEq]
    rw [h2, h3, h4, h2, h3]

theorem mem_leakCandidates (mc fc : Tally) (func : Str) (m fr d : Int) :
    (func, m, fr, d) ∈ leakCandidates mc fc ↔
      m = tget mc func ∧ fr = tget fc func ∧ 0 < m ∧ 0 < fr
        ∧ fr * 2 < m ∧ 10 < m - fr ∧ d = m - fr := by
  unfold leakCandidates
  rw [mem_sortDescBy, List.mem_filterMap]
  constructor
  · rintro ⟨⟨f2, m2, fr2, t2⟩, hr, hcond⟩
    dsimp only at hcond
    split_ifs at hcond with hc
    · rw [Option.some.injEq] at hcond
      injection hcond with h1 hcond
      injection hcond with h2 hcond
      injection hcond with h3 h4
      subst h1
      subst h2
      subst h3
      subst h4
      rw [mem_memoryStats] at hr
      obtain ⟨_, hm, hfr, _, _⟩ := hr
      exact ⟨hm, hfr, hc.1, hc.2.1, hc.2.2.1, hc.2.2.2, rfl⟩
  · rintro ⟨h1, h2, h3, h4, h5, h6, h7⟩
    refine ⟨(func, m, fr, m + fr), ?_, ?_⟩
    · rw [mem_memoryStats]
      refine ⟨?_, h1, h2, rfl, by omega⟩
      rw [mem_memoryFuncs]
      refine Or.inl (mem_tkeys_of_tget_ne_zero mc func ?_)
      omega
    · dsimp only
      rw [if_pos ⟨h3, h4, h5, h6⟩, Option.some.injEq, h7]

/-- C7: a row qualifies as a leak candidate exactly when its allocation
count and free count are both positive, the allocation count strictly
exceeds twice the free count, and their difference strictly exceeds 10;
candidates are ranked by descending difference; in particular a leaf with
allocation 100 and free 40 is flagged (with difference 60) and a leaf with
allocation 15 and free 10 is not flagged (difference 5 is at most 10). -/
theorem C7_leak_candidate_rule :
    (∀ (mc fc : Tally) (func : Str) (m fr d : Int),
        ((func, m, fr, d) ∈ leakCandidates mc fc ↔
          m = tget mc func ∧ fr = tget fc func ∧ 0 < m ∧ 0 < fr
            ∧ fr * 2 < m ∧ 10 < m - fr ∧ d = m - fr))
  ∧ (∀ mc fc : Tally,
        List.Pairwise (fun a b => b.2.2.2 ≤ a.2.2.2) (leakCandidates mc fc))
  ∧ (toL "x", 100, 40, 60) ∈ leakCandidates [(toL "x", 100)] [(toL "x", 40)]
  ∧ (∀ m fr d : Int, (toL "y", m, fr, d) ∉ leakCandidates [(toL "y", 15)] [(toL "y", 10)]) := by
  refine ⟨fun mc fc func m fr d => mem_leakCandidates mc fc func m fr d, ?_,
    by decide, ?_⟩
  · intro mc fc
    unfold leakCandidates
    exact sorted_sortDescBy _ _
  · intro m fr d hmem
    rw [mem_leakCandidates] at hmem
    obtain ⟨h1, h2, h3, h4, h5, h6, h7⟩ := hmem
    rw [show tget [(toL "y", 15)] (toL "y") = 15 from by decide] at h1
    rw [show tget [(toL "y", 10)] (toL "y") = 10 from by decide] at h2
    omega

/-! ### Claim C8: global release/allocation ratio classification -/

theorem memkeys_step (st : Analyzer) (stack : List Str) (w : Int)
    (h1 : ∀ k ∈ tkeys st.malloc_counts, isAllocName k = true)
    (h2 : ∀ k ∈ tkeys st.free_counts, isAllocName k = false)
    (h3 : (tkeys st.malloc_counts).Nodup)
    (h4 : (tkeys st.free_counts).Nodup) :
    (∀ k ∈ tkeys (aggregateSample st stack w).malloc_counts, isAllocName k = true)
    ∧ (∀ k ∈ tkeys (aggregateSample st stack w).free_counts, isAllocName k = false)
    ∧ (tkeys (aggregateSample st stack w).malloc_counts).Nodup
    ∧ (tkeys (aggregateSample st stack w).free_counts).Nodup := by
  have hm := aggregate_malloc st stack w
  have hf := aggregate_free st stack w
  cases hLast : stack.getLast? with
  | none =>
    rw [hLast] at hm hf
    dsimp only at hm hf
    rw [hm, hf]
    exact ⟨h1, h2, h3, h4⟩
  | some leaf =>
    rw [hLast] at hm hf
    dsimp only at hm hf
    by_cases ha : isAllocName leaf
    · rw [if_pos ha] at hm
      rw [if_neg (by simp [ha])] at hf
      rw [hm, hf]
      refine ⟨?_, h2, nodup_tkeys_addTally _ _ _ h3, h4⟩
      intro k hk
      rcases (mem_tkeys_addTally _ _ _ _).mp hk with hk1 | hk1
      · exact h1 k hk1
      · rw [hk1]
        exact ha
    · rw [if_neg ha] at hm
      by_cases hfr : isSub (toL "free") leaf
      · rw [if_pos (by simp [ha, hfr])] at hf
        rw [hm, hf]
        refine ⟨h1, ?_, h3, nodup_tkeys_addTally _ _ _ h4⟩
        intro k hk
        rcases (mem_tkeys_addTally _ _ _ _).mp hk with hk1 | hk1
        · exact h2 k hk1
        · rw [hk1]
          simp only [Bool.not_eq_true] at ha
          exact ha
      · rw [if_neg (by simp [ha, hfr])] at hf
        rw [hm, hf]
        exact ⟨h1, h2, h3, h4⟩

theorem memkeys_inv (lines : List Str) :
    (∀ k ∈ tkeys (parseFile lines).malloc_counts, isAllocName k = true)
    ∧ (∀ k ∈ tkeys (parseFile lines).free_counts, isAllocName k = false)
    ∧ (tkeys (parseFile lines).malloc_counts).Nodup
    ∧ (tkeys (parseFile lines).free_counts).Nodup := by
  unfold parseFile
  dsimp only
  refine foldl_processLine_inv
    (fun st =>
      (∀ k ∈ tkeys st.malloc_counts, isAllocName k = true)
      ∧ (∀ k ∈ tkeys st.free_counts, isAllocName k = false)
      ∧ (tkeys st.malloc_counts).Nodup ∧ (tkeys st.free_counts).Nodup)
    ?_ lines initAnalyzer ⟨by simp [initAnalyzer, tkeys], by simp [initAnalyzer, tkeys],
      by simp [initAnalyzer, tkeys], by simp [initAnalyzer, tkeys]⟩
  intro st l h
  by_cases hl : strip l = []
  · rw [processLine_skip st l hl]
    exact h
  · rw [processLine_accept st l hl]
    exact memkeys_step _ _ _ h.1 h.2.1 h.2.2.1 h.2.2.2

theorem memoryStats_ne_nil_of_pos (lines : List Str)
    (h : 0 < tallySum (parseFile lines).malloc_counts) :
    memoryStats (parseFile lines).malloc_counts (parseFile lines).free_counts ≠ [] := by
  obtain ⟨⟨k, v⟩, hkv, hv⟩ := exists_pos_of_tallySum_pos _ h
  have hinv := memkeys_inv lines
  have hkmem : k ∈ tkeys (parseFile lines).malloc_counts :=
    List.mem_map.mpr ⟨(k, v), hkv, rfl⟩
  have hmk : tget (parseFile lines).malloc_counts k = v :=
    tget_of_mem_nodup _ _ _ hinv.2.2.1 hkv
  have hkfc : k ∉ tkeys (parseFile lines).free_counts := by
    intro hc
    have hfalse := hinv.2.1 k hc
    have htrue := hinv.1 k hkmem
    rw [htrue] at hfalse
    cases hfalse
  have hfc0 : tget (parseFile lines).free_counts k = 0 :=
    tget_eq_zero_of_not_mem _ _ hkfc
  have hrow : (k, tget (parseFile lines).malloc_counts k,
      tget (parseFile lines).free_counts k,
      tget (parseFile lines).malloc_counts k + tget (parseFile lines).free_counts k)
      ∈ memoryStats (parseFile lines).malloc_counts (parseFile lines).free_counts := by
    rw [mem_memoryStats]
    exact ⟨(mem_memoryFuncs _ _ k).mpr (Or.inl hkmem), rfl, rfl, rfl, by omega⟩
  intro hc
  rw [hc] at hrow
  cases hrow

/-- C8: when the total allocation count is strictly positive, the global
ratio `totalFree / totalAlloc` is produced together with a classification
that is `leakRisk` exactly when the ratio is below 0.8, `cacheOrSkew`
exactly when it is above 1.2, and `neutral` exactly when it lies between
the two; when the total allocation count is zero, no ratio and no
classification is produced. -/
theorem C8_global_ratio (lines : List Str) :
    (0 < tallySum (parseFile lines).malloc_counts → ∃ r cls,
        globalRatioVerdict (parseFile lines).malloc_counts (parseFile lines).free_counts
          = some (r, cls)
        ∧ r = (tallySum (parseFile lines).free_counts : Rat)
            / (tallySum (parseFile lines).malloc_counts : Rat)
        ∧ (cls = MemVerdict.leakRisk ↔ r < (4 : Rat) / 5)
        ∧ (cls = MemVerdict.cacheOrSkew ↔ (6 : Rat) / 5 < r)
        ∧ (cls = MemVerdict.neutral ↔ ((4 : Rat) / 5 ≤ r ∧ r ≤ (6 : Rat) / 5)))
  ∧ (tallySum (parseFile lines).malloc_counts = 0 →
      globalRatioVerdict (parseFile lines).malloc_counts (parseFile lines).free_counts
        = none) := by
  constructor
  · intro h
    unfold globalRatioVerdict
    rw [if_neg (memoryStats_ne_nil_of_pos lines h)]
    dsimp only
    rw [if_pos h]
    refine ⟨_, _, rfl, rfl, ?_, ?_, ?_⟩ <;>
      (by_cases hr1 : (tallySum (parseFile lines).free_counts : Rat)
          / (tallySum (parseFile lines).malloc_counts : Rat) < (4 : Rat) / 5)
    · rw [if_pos hr1]
      exact iff_of_true rfl hr1
    · rw [if_neg hr1]
      by_cases hr2 : (6 : Rat) / 5 < (tallySum (parseFile lines).free_counts : Rat)
          / (tallySum (parseFile lines).malloc_counts : Rat)
      · rw [if_pos hr2]
        exact iff_of_false (by simp) hr1
      · rw [if_neg hr2]
        exact iff_of_false (by simp) hr1
    · rw [if_pos hr1]
      refine iff_of_false (by simp) (fun hc => ?_)
      have h45 : (4 : Rat) / 5 < 6 / 5 := by norm_num
      linarith
    · rw [if_neg hr1]
      by_cases hr2 : (6 : Rat) / 5 < (tallySum (parseFile lines).free_counts : Rat)
          / (tallySum (parseFile lines).malloc_counts : Rat)
      · rw [if_pos hr2]
        exact iff_of_true rfl hr2
      · rw [if_neg hr2]
        exact iff_of_false (by simp) hr2
    · rw [if_pos hr1]
      exact iff_of_false (by simp) (fun hc => absurd hr1 (not_lt.mpr hc.1))
    · rw [if_neg hr1]
      by_cases hr2 : (6 : Rat) / 5 < (tallySum (parseFile lines).free_counts : Rat)
          / (tallySum (parseFile lines).malloc_counts : Rat)
      · rw [if_pos hr2]
        exact iff_of_false (by simp) (fun hc => absurd hr2 (not_lt.mpr hc.2))
      · rw [if_neg hr2]
        exact iff_of_true rfl ⟨not_lt.mp hr1, not_lt.mp hr2⟩
  · intro h
    unfold globalRatioVerdict
    by_cases h1 : memoryStats (parseFile lines).malloc_counts
        (parseFile lines).free_counts = []
    · rw [if_pos h1]
    · rw [if_neg h1]
      dsimp only
      rw [if_neg (by omega)]

/-- C8 witness at the concrete input with a malloc leaf of weight 10 and a
free leaf of weight 5 (ratio 1/2, classified as leak risk). -/
theorem C8_witness : ∃ r cls,
    globalRatioVerdict (parseFile [toL "mymalloc;10", toL "xfree;5"]).malloc_counts
        (parseFile [toL "mymalloc;10", toL "xfree;5"]).free_counts = some (r, cls)
    ∧ r = (tallySum (parseFile [toL "mymalloc;10", toL "xfree;5"]).free_counts : Rat)
        / (tallySum (parseFile [toL "mymalloc;10", toL "xfree;5"]).malloc_counts : Rat)
    ∧ (cls = MemVerdict.leakRisk ↔ r < (4 : Rat) / 5)
    ∧ (cls = MemVerdict.cacheOrSkew ↔ (6 : Rat) / 5 < r)
    ∧ (cls = MemVerdict.neutral ↔ ((4 : Rat) / 5 ≤ r ∧ r ≤ (6 : Rat) / 5)) :=
  (C8_global_ratio [toL "mymalloc;10", toL "xfree;5"]).1 (by decide)

/-! ### Claim C9: ordered substring categorisation -/

theorem find_first_match {α : Type _} (p : α → Bool) (pre : List α) (x : α)
    (post : List α) (hpre : ∀ q ∈ pre, p q = false) (hx : p x = true) :
    (pre ++ x :: post).find? p = some x := by
  induction pre with
  | nil =>
    rw [List.nil_append]
    exact List.find?_cons_of_pos post hx
  | cons y ys ih =>
    rw [List.cons_append]
    rw [List.find?_cons_of_neg _ (by simp [hpre y (List.mem_cons_self y ys)])]
    exact ih (fun q hq => hpre q (List.mem_cons_of_mem y hq))

theorem tget_categorize (fc cc : Tally) (b : Str) :
    tget (categorize fc cc) b
      = tget cc b + tallySum (fc.filter (fun p => decide (assignCat p.1 = b))) := by
  induction fc generalizing cc with
  | nil => simp [categorize, tallySum, List.filter]
  | cons p ps ih =>
    unfold categorize at ih ⊢
    rw [List.foldl_cons, ih, tget_addTally]
    by_cases h : assignCat p.1 = b
    · rw [List.filter_cons_of_pos (by simp [h]), tallySum_cons, if_pos h.symm]
      omega
    · rw [List.filter_cons_of_neg (by simp [h]),
        if_neg (fun hh : b = assignCat p.1 => h hh.symm)]
      omega

/-- C9: every distinct frame name of `func_counts` lands in exactly one
category bucket, determined by the first pair of the ordered category list
whose substring occurs in the name (the fallback bucket when none
matches); each bucket total is exactly the sum of the `func_counts`
entries of the names assigned to it; the assignment is a pure function of
the name and the ordered list, hence identical across repeated runs — in
particular the name `QtAppKit`, containing both the `Qt` and the `AppKit`
substrings, is assigned to `Qt`, the category listed first. -/
theorem C9_ordered_categorisation :
    (∀ (lines : List Str) (b : Str),
        tget (parseFile lines).category_counts b
          = tallySum ((parseFile lines).func_counts.filter
              (fun p => decide (assignCat p.1 = b))))
  ∧ (∀ (f : Str) (pre : List (Str × Str)) (p : Str × Str) (post : List (Str × Str)),
        categories = pre ++ p :: post →
        (∀ q ∈ pre, isSub q.2 f = false) → isSub p.2 f = true →
        assignCat f = p.1)
  ∧ (∀ f : Str, (∀ q ∈ categories, isSub q.2 f = false) → assignCat f = otherCat)
  ∧ assignCat (toL "QtAppKit") = toL "Qt" := by
  refine ⟨?_, ?_, ?_, by decide⟩
  · intro lines b
    unfold parseFile
    dsimp only
    rw [tget_categorize, category_counts_foldl]
    simp [tget]
  · intro f pre p post hcat hpre hp
    unfold assignCat
    rw [hcat, find_first_match _ pre p post hpre hp]
  · intro f hnone
    unfold assignCat
    rw [List.find?_eq_none.mpr (fun q hq => by simp [hnone q hq])]

/-- C9 witness: the first-match rule applied at the concrete name
`xAppKit`, which matches no category before `AppKit`. -/
theorem C9_witness : assignCat (toL "xAppKit") = toL "AppKit" :=
  C9_ordered_categorisation.2.1 (toL "xAppKit")
    [(toL "MoganSTEM", toL "MoganSTEM"), (toL "Qt", toL "Qt")]
    (toL "AppKit", toL "AppKit")
    [ (toL "CoreFoundation", toL "CoreFoundation")
    , (toL "libsystem_malloc", toL "libsystem_malloc")
    , (toL "libsystem_kernel", toL "libsystem_kernel")
    , (toL "QuartzCore", toL "QuartzCore")
    , (toL "Foundation", toL "Foundation")
    , (toL "HIToolbox", toL "HIToolbox")
    , (toL "CoreText", toL "CoreText")
    , (toL "iiiSTEM", toL "iiiSTEM")
    , (toL "libqcocoa", toL "libqcocoa.dylib")
    , (toL "libqsvgicon", toL "libqsvgicon.dylib")
    , (toL "libxpc", toL "libxpc.dylib")
    , (toL "libdispatch", toL "libdispatch.dylib")
    , (toL "libobjc", toL "libobjc.A.dylib")
    , (toL "libswiftCore", toL "libswiftCore.dylib") ]
    (by decide) (by decide) (by decide)

/-! ### Claim C10: `func_counts` versus `inclusive_time` -/

theorem parsedStacks_cons (l : Str) (ls : List Str) :
    parsedStacks (l :: ls)
      = match parseLine l with
        | none => parsedStacks ls
        | some p => p.1 :: parsedStacks ls := by
  unfold parsedStacks
  rw [List.filterMap_cons]
  cases parseLine l <;> rfl

theorem parseLine_none (l : Str) (hl : strip l = []) : parseLine l = none := by
  unfold parseLine
  rw [if_pos hl]

theorem parseLine_some (l : Str) (hl : strip l ≠ []) :
    parseLine l = some (parseStripped (strip l)) := by
  unfold parseLine
  rw [if_neg hl]

theorem func_incl_pointwise_step (st : Analyzer) (l : Str)
    (h : ∀ f : Str, f ≠ [] → tget st.func_counts f = tget st.inclusive_time f) :
    ∀ f : Str, f ≠ [] →
      tget (processLine st l).func_counts f
        = tget (processLine st l).inclusive_time f := by
  intro f hf
  by_cases hl : strip l = []
  · rw [processLine_skip st l hl]
    exact h f hf
  · rw [processLine_accept st l hl, aggregate_func_counts, aggregate_inclusive]
    rw [tget_foldl_skip _ _ _ _ hf, tget_foldl_addTally]
    dsimp only
    rw [h f hf]

theorem func_no_nil_key_step (st : Analyzer) (l : Str)
    (h : ([] : Str) ∉ tkeys st.func_counts) :
    ([] : Str) ∉ tkeys (processLine st l).func_counts := by
  by_cases hl : strip l = []
  · rw [processLine_skip st l hl]
    exact h
  · rw [processLine_accept st l hl, aggregate_func_counts]
    exact not_mem_tkeys_foldl_skip _ _ _ h

theorem func_eq_incl_foldl (lines : List Str) (st : Analyzer)
    (hst : st.func_counts = st.inclusive_time)
    (h : ∀ S ∈ parsedStacks lines, ([] : Str) ∉ S) :
    (lines.foldl processLine st).func_counts
      = (lines.foldl processLine st).inclusive_time := by
  induction lines generalizing st with
  | nil => exact hst
  | cons l ls ih =>
    rw [List.foldl_cons]
    apply ih
    · by_cases hl : strip l = []
      · rw [processLine_skip st l hl]
        exact hst
      · rw [processLine_accept st l hl, aggregate_func_counts, aggregate_inclusive]
        rw [foldl_skip_eq_foldl]
        · dsimp only
          rw [hst]
        · apply h
          rw [parsedStacks_cons, parseLine_some l hl]
          exact List.mem_cons_self _ _
    · intro S hS
      apply h
      rw [parsedStacks_cons]
      cases hp : parseLine l with
      | none => exact hS
      | some p => exact List.mem_cons_of_mem _ hS

theorem incl_keys_mono_step (st : Analyzer) (l : Str) (g : Str)
    (h : g ∈ tkeys st.inclusive_time) :
    g ∈ tkeys (processLine st l).inclusive_time := by
  by_cases hl : strip l = []
  · rw [processLine_skip st l hl]
    exact h
  · rw [processLine_accept st l hl, aggregate_inclusive]
    exact mem_tkeys_foldl_of_mem _ _ _ _ h

theorem nil_key_incl_foldl (lines : List Str) (st : Analyzer)
    (h : ∃ S ∈ parsedStacks lines, ([] : Str) ∈ S) :
    ([] : Str) ∈ tkeys (lines.foldl processLine st).inclusive_time := by
  induction lines generalizing st with
  | nil => simp [parsedStacks] at h
  | cons l ls ih =>
    obtain ⟨S, hS, hnil⟩ := h
    rw [parsedStacks_cons] at hS
    rw [List.foldl_cons]
    by_cases hl : strip l = []
    · rw [parseLine_none l hl] at hS
      exact ih _ ⟨S, hS, hnil⟩
    · rw [parseLine_some l hl] at hS
      rcases List.mem_cons.mp hS with hS1 | hS1
      · refine foldl_processLine_inv
          (fun st2 => ([] : Str) ∈ tkeys st2.inclusive_time)
          (fun st2 l2 => incl_keys_mono_step st2 l2 []) ls _ ?_
        dsimp only
        rw [processLine_accept st l hl, aggregate_inclusive]
        apply mem_tkeys_foldl_of_mem_stack
        exact hS1 ▸ hnil
      · exact ih _ ⟨S, hS1, hnil⟩

theorem sum_rel_step (st : Analyzer) (l : Str)
    (h : tallySum st.func_counts + tget st.inclusive_time []
      = tallySum st.inclusive_time) :
    tallySum (processLine st l).func_counts
      + tget (processLine st l).inclusive_time []
      = tallySum (processLine st l).inclusive_time := by
  by_cases hl : strip l = []
  · rw [processLine_skip st l hl]
    exact h
  · rw [processLine_accept st l hl, aggregate_func_counts, aggregate_inclusive]
    rw [tallySum_foldl_skip, tallySum_foldl_addTally, tget_foldl_addTally]
    dsimp only
    have hmul : (((parseStripped (strip l)).1.length : Int)
          - occCount [] (parseStripped (strip l)).1) * (parseStripped (strip l)).2
        + occCount [] (parseStripped (strip l)).1 * (parseStripped (strip l)).2
        = ((parseStripped (strip l)).1.length : Int) * (parseStripped (strip l)).2 := by
      ring
    linarith [h, hmul]

theorem sum_rel_foldl (lines : List Str) :
    tallySum (lines.foldl processLine initAnalyzer).func_counts
      + tget (lines.foldl processLine initAnalyzer).inclusive_time []
      = tallySum (lines.foldl processLine initAnalyzer).inclusive_time :=
  foldl_processLine_inv
    (fun st => tallySum st.func_counts + tget st.inclusive_time []
      = tallySum st.inclusive_time)
    sum_rel_step lines initAnalyzer rfl

/-- C10: the analyzer keeps two per-occurrence tallies that the spec
describes as one Function Tally: `func_counts`, which skips empty frame
names, and `inclusive_time`, which counts every frame. They agree on every
non-empty name, `func_counts` never holds the empty-string key, the two
maps are identical whenever no parsed stack contains an empty frame name,
a parsed stack containing an empty frame name (e.g. from a doubled
semicolon) puts an empty-string entry into `inclusive_time` only, and the
category distribution — computed from `func_counts` — sums to the
inclusive total minus the weight accumulated on the empty name, silently
excluding it. -/
theorem C10_dual_function_tallies :
    (∀ (lines : List Str) (f : Str), f ≠ [] →
        tget (parseFile lines).func_counts f = tget (parseFile lines).inclusive_time f)
  ∧ (∀ lines : List Str, ([] : Str) ∉ tkeys (parseFile lines).func_counts)
  ∧ (∀ lines : List Str, (∀ S ∈ parsedStacks lines, ([] : Str) ∉ S) →
        (parseFile lines).func_counts = (parseFile lines).inclusive_time)
  ∧ (∀ lines : List Str, (∃ S ∈ parsedStacks lines, ([] : Str) ∈ S) →
        ([] : Str) ∈ tkeys (parseFile lines).inclusive_time)
  ∧ (∀ lines : List Str,
        tallySum (parseFile lines).category_counts
          = tallySum (parseFile lines).inclusive_time
            - tget (parseFile lines).inclusive_time [])
  ∧ (parseFile [toL "a;;b;3"]).inclusive_time
      = [(toL "a", 3), ([], 3), (toL "b", 3)]
  ∧ (parseFile [toL "a;;b;3"]).func_counts = [(toL "a", 3), (toL "b", 3)] := by
  refine ⟨?_, ?_, ?_, ?_, ?_, by decide, by decide⟩
  · intro lines
    exact foldl_processLine_inv
      (fun st => ∀ f : Str, f ≠ [] →
        tget st.func_counts f = tget st.inclusive_time f)
      func_incl_pointwise_step lines initAnalyzer (fun f _ => rfl)
  · intro lines
    exact foldl_processLine_inv
      (fun st => ([] : Str) ∉ tkeys st.func_counts)
      func_no_nil_key_step lines initAnalyzer (by simp [initAnalyzer, tkeys])
  · intro lines h
    exact func_eq_incl_foldl lines initAnalyzer rfl h
  · intro lines h
    exact nil_key_incl_foldl lines initAnalyzer h
  · intro lines
    unfold parseFile
    dsimp only
    rw [tallySum_categorize, category_counts_foldl]
    have hsum := sum_rel_foldl lines
    rw [show tallySum ([] : Tally) = 0 from rfl]
    omega

/-- C10 witness: on the input `a;2` the two tallies agree at the name
`a`. -/
theorem C10_witness :
    tget (parseFile [toL "a;2"]).func_counts (toL "a")
      = tget (parseFile [toL "a;2"]).inclusive_time (toL "a") :=
  C10_dual_function_tallies.1 [toL "a;2"] (toL "a") (by decide)

/-- C3 witness at the concrete input `x;y;4`. -/
theorem C3_witness :
    tallySum (parseFile [toL "x;y;4"]).exclusive_time
      = (parseFile [toL "x;y;4"]).total_samples :=
  C3_exclusive_tally_total [toL "x;y;4"]

/-- C1 amended, witness at the concrete input `a;b;3`. -/
theorem C1_amended_witness :
    tallySum (parseFile [toL "a;b;3"]).category_counts
      = tallySum (parseFile [toL "a;b;3"]).func_counts :=
  C1_amended_category_sum [toL "a;b;3"]

/-- C5 witness: the Function Tally law applied at a concrete one-frame
sample. -/
theorem C5_witness :
    tget (aggregateSample initAnalyzer ([] ++ [toL "x"]) 2).inclusive_time (toL "x")
      = tget initAnalyzer.inclusive_time (toL "x")
        + occCount (toL "x") ([] ++ [toL "x"]) * 2 :=
  (C5_aggregation_per_sample initAnalyzer [] (toL "x") 2 (toL "x") (toL "x")).1

/-- C7 witness: the qualification rule applied at the concrete tallies
with allocation 100 and free 40. -/
theorem C7_witness :
    (toL "x", 100, 40, 60) ∈ leakCandidates [(toL "x", 100)] [(toL "x", 40)] ↔
      (100 : Int) = tget [(toL "x", 100)] (toL "x")
        ∧ (40 : Int) = tget [(toL "x", 40)] (toL "x")
        ∧ (0 : Int) < 100 ∧ (0 : Int) < 40
        ∧ (40 : Int) * 2 < 100 ∧ (10 : Int) < 100 - 40 ∧ (60 : Int) = 100 - 40 :=
  C7_leak_candidate_rule.1 [(toL "x", 100)] [(toL "x", 40)] (toL "x") 100 40 60
